import Mathlib

/-!
Shallow embedding of `tools/generate_names.py` from the simfin repository.

The script downloads a JSON list of records, each a dictionary with keys
`name` (string), `shortcuts` (list of strings) and optionally `description`
(string), aggregates them into a dictionary keyed by name, and writes a
generated Python module: a fixed header, one block per name (wrapped
description comment lines, an assignment line, a blank line), and a trailing
separator row.

JSON records are modelled as structures with `Option` fields so that a
missing dictionary key is representable; a Python `KeyError` is modelled by
`Except.error`.  Python strings are modelled by `String` (codepoint
lexicographic order on both sides), `dict` by an insertion-ordered
association list, `sorted` by `List.insertionSort`, and `set`-based
deduplication by `List.dedup` followed by sorting.
-/

/-- A JSON record from the downloaded `columns` file.  Each field is `none`
when the corresponding dictionary key is absent. -/
structure InputRecord where
  name : Option String
  shortcuts : Option (List String)
  description : Option String
deriving DecidableEq, Repr

/-- The value stored in `data_organized` for one name: the accumulated
shortcut list and the accumulated non-empty descriptions. -/
structure NameGroup where
  shortcuts : List String
  descriptions : List String
deriving DecidableEq, Repr

/-- State of the aggregation loop in `_process`: the dictionary
`data_organized` (insertion-ordered association list) together with the
flat lists `all_names` and `all_shortcuts`. -/
structure AggState where
  organized : List (String × NameGroup)
  allNames : List String
  allShortcuts : List String
deriving DecidableEq, Repr

/-- `data_organized.get(name)`: first entry with the given key. -/
def lookupOrg : List (String × NameGroup) → String → Option NameGroup
  | [], _ => none
  | (k, v) :: m, n => if k = n then some v else lookupOrg m n

/-- `data_organized[name] = g`: replace the value at an existing key in
place, otherwise append the new key at the end (Python dict semantics). -/
def updateOrg : List (String × NameGroup) → String → NameGroup → List (String × NameGroup)
  | [], n, g => [(n, g)]
  | (k, v) :: m, n, g => if k = n then (n, g) :: m else (k, v) :: updateOrg m n g

/-- The body of the `for record in data` loop in `_process`: fetch `name`
(a `KeyError` if absent), append it to `all_names`, fetch `shortcuts`
(a `KeyError` if absent), extend `all_shortcuts`, default a missing
`description` to `""`, then extend the `NameGroup` stored under `name`,
appending the description only when it is non-empty. -/
def processRecord (st : AggState) (r : InputRecord) : Except String AggState :=
  match r.name with
  | none => .error "KeyError: name"
  | some name =>
    let allNames := st.allNames ++ [name]
    match r.shortcuts with
    | none => .error "KeyError: shortcuts"
    | some shortcuts =>
      let allShortcuts := st.allShortcuts ++ shortcuts
      let description := r.description.getD ""
      let recordOrg := (lookupOrg st.organized name).getD ⟨[], []⟩
      let recordOrg : NameGroup :=
        ⟨recordOrg.shortcuts ++ shortcuts,
         recordOrg.descriptions ++ (if description ≠ "" then [description] else [])⟩
      .ok ⟨updateOrg st.organized name recordOrg, allNames, allShortcuts⟩

/-- The aggregation loop of `_process`, started from a given state. -/
def aggLoop : AggState → List InputRecord → Except String AggState
  | st, [] => .ok st
  | st, r :: rs =>
    match processRecord st r with
    | .error e => .error e
    | .ok st1 => aggLoop st1 rs

/-- Aggregation of the full record list from the empty state (the first,
file-writing-free phase of `_process`). -/
def aggregate (rs : List InputRecord) : Except String AggState :=
  aggLoop ⟨[], [], []⟩ rs

/-! ## Python string helpers -/

/-- Characters treated as whitespace by Python `str.strip` / `str.split`
(ASCII part: space, tab, newline, carriage return, vertical tab, form
feed). -/
def isPySpace (c : Char) : Bool :=
  c = ' ' || c = Char.ofNat 9 || c = Char.ofNat 10 || c = Char.ofNat 13 ||
  c = Char.ofNat 11 || c = Char.ofNat 12

/-- Remove trailing whitespace characters from a character list. -/
def rstripL (l : List Char) : List Char :=
  (l.reverse.dropWhile isPySpace).reverse

/-- Remove leading and trailing whitespace characters. -/
def stripL (l : List Char) : List Char :=
  rstripL (l.dropWhile isPySpace)

/-- Python `s.strip()`. -/
def pyStrip (s : String) : String :=
  String.mk (stripL s.data)

/-- A single-quote character, and the single-quote string used to wrap the
name on the assignment line. -/
def squoteChar : Char := Char.ofNat 39

def squote : String := String.singleton squoteChar

/-! ## `_get_duplicates` -/

/-- `_get_duplicates(x)`: `np.unique(x, return_index=True)` gives the index
of the first occurrence of every distinct value; the boolean mask keeps
exactly the positions that are not such a first occurrence, and `x[mask]`
lists them in position order.  Embedded with an accumulator of the values
already seen. -/
def getDuplicatesGo (seen : List String) : List String → List String
  | [] => []
  | v :: rest =>
    if v ∈ seen then v :: getDuplicatesGo seen rest
    else getDuplicatesGo (v :: seen) rest

def getDuplicates (x : List String) : List String :=
  getDuplicatesGo [] x

/-! ## Text wrapping

`TextWrapper(width=80, initial_indent='# ', subsequent_indent='# ')`:
whitespace runs are collapsed, the text is split into words, words longer
than the available width are broken (`break_long_words=True`), and words
are packed greedily into lines of at most 80 characters, every line
carrying the `"# "` indent. -/

/-- Split a character list into its maximal whitespace-free words. -/
def splitWordsAux : List Char → List Char → List (List Char)
  | [], acc => if acc.isEmpty then [] else [acc.reverse]
  | c :: cs, acc =>
    if isPySpace c then
      if acc.isEmpty then splitWordsAux cs []
      else acc.reverse :: splitWordsAux cs []
    else splitWordsAux cs (c :: acc)

def splitWords (l : List Char) : List (List Char) :=
  splitWordsAux l []

/-- Break a list into chunks of at most `k + 1` characters. -/
def chunksOf (k : Nat) : List Char → List (List Char)
  | [] => []
  | c :: cs => (c :: cs.take k) :: chunksOf k (cs.drop k)
termination_by l => l.length
decreasing_by
  simp only [List.length_cons, List.length_drop]
  omega

/-- Break any word longer than `avail` characters into chunks of at most
`avail` characters (`break_long_words=True`). -/
def breakLongWords (avail : Nat) (ws : List (List Char)) : List (List Char) :=
  ws.flatMap fun w => if w.length ≤ avail then [w] else chunksOf (avail - 1) w

/-- Greedy line filling: `cur` is the content of the line being built
(without the indent); a word is appended when it still fits within
`avail` characters, otherwise the line is emitted and a new one begun. -/
def fillLoop (avail : Nat) : List (List Char) → List Char → List (List Char)
  | [], cur => [cur]
  | w :: ws, cur =>
    if cur.length + 1 + w.length ≤ avail then fillLoop avail ws (cur ++ ' ' :: w)
    else cur :: fillLoop avail ws w

/-- The contents (indent excluded) of the wrapped lines: no words give no
lines, otherwise the greedy filling starts with the first word. -/
def wrapLines (avail : Nat) : List (List Char) → List (List Char)
  | [] => []
  | w :: ws => fillLoop avail ws w

/-- `wrapper.wrap(text)`: split into words, break over-long words, pack
greedily into lines of at most `width` characters including the indent
prefixed to every line.  Empty or all-whitespace text yields no lines. -/
def wrapText (width : Nat) (indent : String) (text : String) : List String :=
  (wrapLines (width - indent.length)
      (breakLongWords (width - indent.length) (splitWords text.data))).map
    fun l => indent ++ String.mk l

/-! ## Python string comparison

Python compares strings lexicographically by codepoint.  Mathlib's
`String` order is propositionally the same but is implemented by
well-founded recursion (`String.ltb`), which the kernel cannot evaluate,
so the embedding uses its own structurally recursive comparison and the
theorems below prove it equal to `· ≤ ·`. -/

/-- Lexicographic codepoint comparison of character lists (`x <= y`). -/
def strLeB : List Char → List Char → Bool
  | [], _ => true
  | _ :: _, [] => false
  | a :: as, b :: bs =>
    if a < b then true
    else if b < a then false
    else strLeB as bs

/-- Python `s <= t` on strings. -/
def pyLe (s t : String) : Prop := strLeB s.data t.data = true

instance (s t : String) : Decidable (pyLe s t) :=
  inferInstanceAs (Decidable (strLeB s.data t.data = true))

instance : DecidableRel pyLe :=
  fun s t => inferInstanceAs (Decidable (strLeB s.data t.data = true))

instance : DecidableRel (fun a b : String × NameGroup => pyLe a.1 b.1) :=
  fun a b => inferInstanceAs (Decidable (strLeB a.1.data b.1.data = true))

/-- Python `sorted` on a list of strings (stability is irrelevant here
because equal strings are identical). -/
def pySortStrings (l : List String) : List String :=
  List.insertionSort (fun a b => pyLe a b) l

/-! ## Rendering one name group -/

/-- The single combined description string handed to the text wrapper
(before the final `.strip()`): the sole description when there is exactly
one, otherwise the numbered concatenation built by the
`for i, descr in enumerate(descriptions)` loop, starting from index 1. -/
def numberedGo (i : Nat) : List String → String
  | [] => ""
  | d :: ds => "(" ++ toString i ++ ") " ++ pyStrip d ++ " " ++ numberedGo (i + 1) ds

def combineDescriptions (ds : List String) : String :=
  if ds.length = 1 then ds.headD ""
  else numberedGo 1 ds

/-- The argument actually given to `wrapper.wrap`, namely
`description.strip()`. -/
def wrapInput (ds : List String) : String :=
  pyStrip (combineDescriptions ds)

/-- The description comment lines written for a group (none at all when the
group has no descriptions). -/
def descriptionLines (ds : List String) : List String :=
  if ds.length > 0 then wrapText 80 "# " (wrapInput ds) else []

/-- `list(set(shortcuts))` followed by `sorted(...)`: the deduplicated,
ascending shortcut list rendered on the assignment line. -/
def renderedShortcuts (shortcuts : List String) : List String :=
  pySortStrings shortcuts.dedup

/-- The assignment line: every rendered shortcut followed by `" = "`, then
the name wrapped in single quotes. -/
def assignLine (shortcuts : List String) (name : String) : String :=
  String.join ((renderedShortcuts shortcuts).map fun s => s ++ " = ") ++
    squote ++ name ++ squote

/-- All lines written for one name group: wrapped description comments,
the assignment line, and the blank separator line. -/
def renderGroup (name : String) (g : NameGroup) : List String :=
  descriptionLines g.descriptions ++ [assignLine g.shortcuts name] ++ [""]

/-! ## The whole output file -/

/-- `sorted(data_organized.items())`: Python compares the key (the name)
first; keys are distinct, so the values are never compared. -/
def organizedItemsSorted (st : AggState) : List (String × NameGroup) :=
  List.insertionSort (fun a b : String × NameGroup => pyLe a.1 b.1) st.organized

/-- The row of 74 `#` characters used as section separator. -/
def hashRow : String :=
  String.mk (List.replicate 74 (Char.ofNat 35))

/-- The lines of the `_header` constant, followed by the extra blank line
appended by `print(_header, file=file)`. -/
def headerLines : List String :=
  [hashRow,
   "#",
   "# Names that makes it easier to address individual data-columns.",
   "# For example, you can write df[SGA] instead of",
   "# df[" ++ squote ++ "Selling, General & Administrative" ++ squote ++
     "] to get the same data.",
   "#",
   "# For a better overview of the datasets and their data-columns, see:",
   "# https://simfin.com/data/access/bulk",
   "#",
   "# This file was auto-generated by the script: tools/generate_names.py",
   "#",
   hashRow,
   "# SimFin - Simple financial data for Python.",
   "# www.simfin.com - www.github.com/simfin/simfin",
   "# See README.md for instructions and LICENSE.txt for license details.",
   hashRow,
   "",
   "# Import all the extra names that have been manually defined. This makes",
   "# them available for import through this auto-generated module as well.",
   "from simfin.names_extra import *",
   "",
   hashRow,
   ""]

/-- The full sequence of lines `_process` writes to `names.py`, or the
error raised during aggregation.  Aggregation runs to completion before
the output file is even opened, so a failing aggregation produces no
output lines at all. -/
def namesFile (rs : List InputRecord) : Except String (List String) :=
  match aggregate rs with
  | .error e => .error e
  | .ok st =>
    .ok (headerLines ++
      (organizedItemsSorted st).flatMap (fun p => renderGroup p.1 p.2) ++
      [hashRow])

/-! ## Specification-side definitions

These definitions follow the wording of the specification (not the code);
the theorems below compare the embedded code against them. -/

/-- The sub-sequence of input records carrying a given name, in input
order. -/
def recordsFor (rs : List InputRecord) (n : String) : List InputRecord :=
  rs.filter fun r => r.name = some n

/-- Spec: the concatenation of the shortcut lists of all records with the
given name. -/
def specShortcuts (rs : List InputRecord) (n : String) : List String :=
  (recordsFor rs n).flatMap fun r => r.shortcuts.getD []

/-- Spec: the non-empty descriptions of all records with the given name,
in encounter (input) order. -/
def specDescriptions (rs : List InputRecord) (n : String) : List String :=
  (recordsFor rs n).filterMap fun r =>
    if r.description.getD "" = "" then none else some (r.description.getD "")

/-- Spec: the one `NameGroup` obtained by folding all records sharing the
given name, or `none` when no record carries it. -/
def specGroupFor (rs : List InputRecord) (n : String) : Option NameGroup :=
  if recordsFor rs n = [] then none
  else some ⟨specShortcuts rs n, specDescriptions rs n⟩

/-- Spec: the numbered description pieces, each trimmed description
preceded by its 1-based parenthesized index. -/
def specNumberedGo (i : Nat) : List String → List String
  | [] => []
  | d :: ds => ("(" ++ toString i ++ ") " ++ pyStrip d) :: specNumberedGo (i + 1) ds

/-- Spec: the combined multi-description string, the numbered pieces
separated by single spaces. -/
def specNumbered (ds : List String) : String :=
  String.intercalate " " (specNumberedGo 1 ds)

/-- Joining a list of strings with single spaces (structural version of
`String.intercalate " "`, used to reason about it). -/
def joinBySpace : List String → String
  | [] => ""
  | [s] => s
  | s :: t :: rest => s ++ " " ++ joinBySpace (t :: rest)

/-- The tail of a space-separated join: every piece preceded by one
space. -/
def joinSpaceTail : List String → String
  | [] => ""
  | s :: rest => " " ++ s ++ joinSpaceTail rest

/-- The sequence of shortcut slots across all assignment lines of the
rendered output, in output order (each assignment line is built from
`renderedShortcuts` by `assignLine`). -/
def outputShortcutSlots (rs : List InputRecord) : Except String (List String) :=
  match aggregate rs with
  | .error e => .error e
  | .ok st => .ok ((organizedItemsSorted st).flatMap fun p => renderedShortcuts p.2.shortcuts)

/-- Extending an already-accumulated group by the contributions of a list
of records: the generalisation of `specGroupFor` used to run the
induction over the aggregation loop. -/
def mergeSpec (g? : Option NameGroup) (rs : List InputRecord) (n : String) :
    Option NameGroup :=
  if recordsFor rs n = [] then g?
  else some ⟨(g?.getD ⟨[], []⟩).shortcuts ++ specShortcuts rs n,
             (g?.getD ⟨[], []⟩).descriptions ++ specDescriptions rs n⟩

/-- A small concrete input used by several witnesses: two records named
`"A"` (the second with an empty description) and one named `"B"`. -/
def sampleRecords : List InputRecord :=
  [InputRecord.mk (some "A") (some ["X"]) (some "d"),
   InputRecord.mk (some "B") (some ["Y"]) none,
   InputRecord.mk (some "A") (some ["Z"]) (some "")]

/-- The aggregation state `sampleRecords` produces. -/
def sampleState : AggState :=
  AggState.mk [("A", NameGroup.mk ["X", "Z"] ["d"]), ("B", NameGroup.mk ["Y"] [])]
    ["A", "B", "A"] ["X", "Y", "Z"]

instance : IsTotal (String × NameGroup) (fun a b => a.1 ≤ b.1) :=
  ⟨fun a b => le_total a.1 b.1⟩

instance : IsTrans (String × NameGroup) (fun a b => a.1 ≤ b.1) :=
  ⟨fun _ _ _ => le_trans⟩

instance {ε α : Type} [DecidableEq ε] [DecidableEq α] : DecidableEq (Except ε α) :=
  fun a b =>
    match a, b with
    | .error x, .error y =>
      if h : x = y then .isTrue (by rw [h])
      else .isFalse (by intro c; injection c; contradiction)
    | .error _, .ok _ => .isFalse (by intro c; exact Except.noConfusion c)
    | .ok _, .error _ => .isFalse (by intro c; exact Except.noConfusion c)
    | .ok x, .ok y =>
      if h : x = y then .isTrue (by rw [h])
      else .isFalse (by intro c; injection c; contradiction)

/-! ## Lemmas: `_get_duplicates` -/

theorem getDuplicatesGo_count (v : String) :
    ∀ (x seen : List String),
      (getDuplicatesGo seen x).count v = x.count v - (if v ∈ seen then 0 else 1) := by
  intro x
  induction x with
  | nil => intro seen; simp [getDuplicatesGo]
  | cons a rest ih =>
    intro seen
    have hcons : (v ∈ a :: seen) ↔ (v = a ∨ v ∈ seen) := List.mem_cons
    simp only [getDuplicatesGo]
    by_cases ha : a ∈ seen
    · rw [if_pos ha]
      by_cases hv : v = a
      · subst hv
        rw [List.count_cons_self, List.count_cons_self, ih seen, if_pos ha]
        omega
      · rw [List.count_cons_of_ne hv, List.count_cons_of_ne hv, ih seen]
    · rw [if_neg ha]
      by_cases hv : v = a
      · subst hv
        rw [ih (v :: seen), if_pos (hcons.mpr (Or.inl rfl)), List.count_cons_self,
          if_neg ha]
        omega
      · rw [ih (a :: seen), List.count_cons_of_ne hv]
        by_cases hs : v ∈ seen
        · rw [if_pos (hcons.mpr (Or.inr hs)), if_pos hs]
        · rw [if_neg (fun hh => (hcons.mp hh).elim hv hs), if_neg hs]

/-- C2: `_get_duplicates` is a pure function of its input list; for a value
occurring `k` times it returns exactly `k - 1` entries of that value (all
occurrences except one first-seen representative); the empty list gives the
empty list, and `["A", "A", "B"]` gives the one-element result `["A"]`. -/
theorem c2_get_duplicates_count :
    (∀ (x : List String) (v : String), (getDuplicates x).count v = x.count v - 1) ∧
    getDuplicates [] = [] ∧
    getDuplicates ["A", "A", "B"] = ["A"] := by
  refine ⟨fun x v => ?_, rfl, by decide⟩
  simpa [getDuplicates] using getDuplicatesGo_count v x []

/-! ## Lemmas: the association list `data_organized` -/

theorem lookupOrg_updateOrg (m : List (String × NameGroup)) (n : String) (g : NameGroup)
    (x : String) :
    lookupOrg (updateOrg m n g) x = if n = x then some g else lookupOrg m x := by
  induction m with
  | nil => simp [updateOrg, lookupOrg]
  | cons p m ih =>
    obtain ⟨k, v⟩ := p
    by_cases hk : k = n
    · subst hk
      simp only [updateOrg, if_pos rfl, lookupOrg]
      by_cases hx : k = x
      · simp [hx]
      · simp [hx, lookupOrg]
    · simp only [updateOrg, if_neg hk, lookupOrg]
      by_cases hx : k = x
      · subst hx
        have : ¬ n = k := fun h => hk h.symm
        simp [this]
      · simp [hx, ih]

theorem keys_updateOrg (m : List (String × NameGroup)) (n : String) (g : NameGroup) :
    (updateOrg m n g).map Prod.fst =
      if n ∈ m.map Prod.fst then m.map Prod.fst else m.map Prod.fst ++ [n] := by
  induction m with
  | nil => simp [updateOrg]
  | cons p m ih =>
    obtain ⟨k, v⟩ := p
    by_cases hk : k = n
    · subst hk
      simp [updateOrg]
    · have hne : ¬ n = k := fun h => hk h.symm
      simp only [updateOrg, if_neg hk, List.map_cons, List.mem_cons, hne, false_or, ih]
      by_cases hm : n ∈ m.map Prod.fst <;> simp [hm]

theorem nodup_keys_updateOrg (m : List (String × NameGroup)) (n : String) (g : NameGroup)
    (h : (m.map Prod.fst).Nodup) : ((updateOrg m n g).map Prod.fst).Nodup := by
  rw [keys_updateOrg]
  by_cases hm : n ∈ m.map Prod.fst
  · simpa [hm]
  · rw [if_neg hm]
    refine List.Nodup.append h (List.nodup_singleton n) ?_
    intro a ha hb
    have hab : a = n := by simpa using hb
    exact hm (hab ▸ ha)

theorem lookupOrg_eq_none_iff (m : List (String × NameGroup)) (n : String) :
    lookupOrg m n = none ↔ n ∉ m.map Prod.fst := by
  induction m with
  | nil => simp [lookupOrg]
  | cons p m ih =>
    obtain ⟨k, v⟩ := p
    by_cases hk : k = n
    · subst hk
      simp [lookupOrg]
    · have hne : ¬ n = k := fun h => hk h.symm
      simp [lookupOrg, hk, hne, ih]

theorem lookupOrg_mem (m : List (String × NameGroup)) (n : String) (g : NameGroup)
    (h : lookupOrg m n = some g) : (n, g) ∈ m := by
  induction m with
  | nil => simp [lookupOrg] at h
  | cons p m ih =>
    obtain ⟨k, v⟩ := p
    by_cases hk : k = n
    · subst hk
      have hv : v = g := by simpa [lookupOrg] using h
      subst hv
      exact List.mem_cons_self _ _
    · simp only [lookupOrg, if_neg hk] at h
      exact List.mem_cons_of_mem _ (ih h)

theorem mem_lookupOrg (m : List (String × NameGroup)) (n : String) (g : NameGroup)
    (hnd : (m.map Prod.fst).Nodup) (h : (n, g) ∈ m) : lookupOrg m n = some g := by
  induction m with
  | nil => simp at h
  | cons p m ih =>
    obtain ⟨k, v⟩ := p
    rcases List.mem_cons.mp h with h | h
    · injection h with h1 h2
      subst h1
      subst h2
      simp [lookupOrg]
    · have hk : k ≠ n := by
        intro hk
        subst hk
        have : k ∈ m.map Prod.fst := List.mem_map_of_mem Prod.fst h
        simp only [List.map_cons, List.nodup_cons] at hnd
        exact hnd.1 this
      simp only [lookupOrg, if_neg hk]
      exact ih (by simpa using (List.nodup_cons.mp (by simpa using hnd)).2) h

/-! ## Lemmas: the aggregation loop -/

/-- A successful aggregation means every record had its `name` and
`shortcuts` keys. -/
theorem aggLoop_ok_wf :
    ∀ (rs : List InputRecord) (st st' : AggState), aggLoop st rs = .ok st' →
      ∀ r ∈ rs, r.name.isSome = true ∧ r.shortcuts.isSome = true := by
  intro rs
  induction rs with
  | nil => intro st st' _ r hr; simp at hr
  | cons r0 rest ih =>
    intro st st' h r hr
    rcases hn : r0.name with _ | nm
    · simp [aggLoop, processRecord, hn] at h
    · rcases hs : r0.shortcuts with _ | sc
      · simp [aggLoop, processRecord, hn, hs] at h
      · simp only [aggLoop, processRecord, hn, hs] at h
        rcases List.mem_cons.mp hr with h1 | h1
        · subst h1; simp [hn, hs]
        · exact ih _ _ h r h1

/-- Well-formed records make the aggregation loop succeed. -/
theorem aggLoop_wf_ok :
    ∀ (rs : List InputRecord) (st : AggState),
      (∀ r ∈ rs, r.name.isSome = true ∧ r.shortcuts.isSome = true) →
      ∃ st', aggLoop st rs = .ok st' := by
  intro rs
  induction rs with
  | nil => intro st _; exact ⟨st, rfl⟩
  | cons r0 rest ih =>
    intro st h
    obtain ⟨hn, hs⟩ := h r0 (List.mem_cons_self r0 rest)
    rcases hn' : r0.name with _ | nm
    · rw [hn'] at hn; simp at hn
    · rcases hs' : r0.shortcuts with _ | sc
      · rw [hs'] at hs; simp at hs
      · obtain ⟨st', hst⟩ := ih _ (fun r hr => h r (List.mem_cons_of_mem r0 hr))
        exact ⟨st', by simp only [aggLoop, processRecord, hn', hs']; exact hst⟩

theorem recordsFor_cons_eq (r : InputRecord) (rs : List InputRecord) (n : String)
    (h : r.name = some n) : recordsFor (r :: rs) n = r :: recordsFor rs n := by
  simp [recordsFor, List.filter_cons, h]

theorem recordsFor_cons_ne (r : InputRecord) (rs : List InputRecord) (n : String)
    (h : ¬ r.name = some n) : recordsFor (r :: rs) n = recordsFor rs n := by
  simp [recordsFor, List.filter_cons, h]

theorem mergeSpec_some (g : NameGroup) (rs : List InputRecord) (n : String) :
    mergeSpec (some g) rs n =
      some ⟨g.shortcuts ++ specShortcuts rs n, g.descriptions ++ specDescriptions rs n⟩ := by
  by_cases h : recordsFor rs n = []
  · simp [mergeSpec, h, specShortcuts, specDescriptions]
  · simp [mergeSpec, h]

theorem mergeSpec_none (rs : List InputRecord) (n : String) :
    mergeSpec none rs n = specGroupFor rs n := by
  by_cases h : recordsFor rs n = []
  · simp [mergeSpec, specGroupFor, h]
  · simp [mergeSpec, specGroupFor, h]

/-- The aggregation loop never duplicates a key of `data_organized`. -/
theorem aggLoop_nodup_keys :
    ∀ (rs : List InputRecord) (st st' : AggState),
      (st.organized.map Prod.fst).Nodup → aggLoop st rs = .ok st' →
      (st'.organized.map Prod.fst).Nodup := by
  intro rs
  induction rs with
  | nil => intro st st' hnd h; cases h; exact hnd
  | cons r0 rest ih =>
    intro st st' hnd h
    rcases hn : r0.name with _ | nm
    · simp [aggLoop, processRecord, hn] at h
    · rcases hs : r0.shortcuts with _ | sc
      · simp [aggLoop, processRecord, hn, hs] at h
      · simp only [aggLoop, processRecord, hn, hs] at h
        exact ih _ _ (nodup_keys_updateOrg _ _ _ hnd) h

/-- What the aggregation loop stores under each name: the group it started
with, extended by the shortcut concatenation and the non-empty descriptions
of the records carrying that name, in input order. -/
theorem aggLoop_lookup :
    ∀ (rs : List InputRecord) (st st' : AggState), aggLoop st rs = .ok st' →
      ∀ n, lookupOrg st'.organized n = mergeSpec (lookupOrg st.organized n) rs n := by
  intro rs
  induction rs with
  | nil =>
    intro st st' h n
    cases h
    simp [mergeSpec, recordsFor]
  | cons r0 rest ih =>
    intro st st' h n
    rcases hn : r0.name with _ | nm
    · simp [aggLoop, processRecord, hn] at h
    · rcases hs : r0.shortcuts with _ | sc
      · simp [aggLoop, processRecord, hn, hs] at h
      · simp only [aggLoop, processRecord, hn, hs] at h
        have step := ih _ _ h n
        rw [step]
        simp only [lookupOrg_updateOrg]
        by_cases heq : nm = n
        · subst heq
          rw [if_pos rfl]
          have hrec : recordsFor (r0 :: rest) nm = r0 :: recordsFor rest nm :=
            recordsFor_cons_eq r0 rest nm hn
          have hsc : specShortcuts (r0 :: rest) nm = sc ++ specShortcuts rest nm := by
            simp [specShortcuts, hrec, hs]
          have hdesc : specDescriptions (r0 :: rest) nm =
              (if r0.description.getD "" = "" then [] else [r0.description.getD ""]) ++
                specDescriptions rest nm := by
            by_cases hd : r0.description.getD "" = ""
            · simp [specDescriptions, hrec, hd]
            · simp [specDescriptions, hrec, hd]
          rw [mergeSpec_some]
          have hne : ¬ recordsFor (r0 :: rest) nm = [] := by simp [hrec]
          simp only [mergeSpec, if_neg hne, hsc, hdesc]
          by_cases hd : r0.description.getD "" = ""
          · simp [hd, List.append_assoc]
          · simp [hd, List.append_assoc]
        · rw [if_neg heq]
          have hrne : ¬ r0.name = some n := by simp [hn, heq]
          have hrec : recordsFor (r0 :: rest) n = recordsFor rest n :=
            recordsFor_cons_ne r0 rest n hrne
          simp [mergeSpec, specShortcuts, specDescriptions, hrec]

/-- Aggregation from the empty dictionary realises exactly the
specification group for every name. -/
theorem aggregate_lookup (rs : List InputRecord) (st : AggState)
    (h : aggregate rs = .ok st) (n : String) :
    lookupOrg st.organized n = specGroupFor rs n := by
  have := aggLoop_lookup rs _ st h n
  rw [this]
  simp [lookupOrg, mergeSpec_none]

/-! ## Claim C3 -/

/-- C3: for every input sequence of records, aggregation folds all records
sharing one name into a single `NameGroup` whose shortcut list is the
concatenation of those records' shortcut lists and whose descriptions are
exactly the non-empty descriptions of those records, in encounter order:
what `data_organized` stores under any name equals the group built by the
specification (`specGroupFor`). -/
theorem c3_aggregation_merges_by_name (rs : List InputRecord) (st : AggState)
    (h : aggregate rs = .ok st) (n : String) :
    lookupOrg st.organized n = specGroupFor rs n :=
  aggregate_lookup rs st h n

theorem c3_witness :
    lookupOrg [("A", NameGroup.mk ["X", "Z"] ["d"]), ("B", NameGroup.mk ["Y"] [])] "A" =
      specGroupFor
        [InputRecord.mk (some "A") (some ["X"]) (some "d"),
         InputRecord.mk (some "B") (some ["Y"]) none,
         InputRecord.mk (some "A") (some ["Z"]) (some "")] "A" :=
  c3_aggregation_merges_by_name
    [InputRecord.mk (some "A") (some ["X"]) (some "d"),
     InputRecord.mk (some "B") (some ["Y"]) none,
     InputRecord.mk (some "A") (some ["Z"]) (some "")]
    (AggState.mk [("A", NameGroup.mk ["X", "Z"] ["d"]), ("B", NameGroup.mk ["Y"] [])]
      ["A", "B", "A"] ["X", "Y", "Z"])
    (by decide) "A"

/-! ## Claim C4 -/

/-- C4: a record lacking the `name` key makes processing fail during
aggregation, and since in `_process` the whole aggregation loop runs before
the output file is even opened, a failing run produces no output lines at
all (the `Except.error` result carries no file content); a missing
`description` key is not an error (well-formed inputs always render) and is
treated exactly like an empty description. -/
theorem c4_missing_name_fatal (rs : List InputRecord) :
    ((∃ r ∈ rs, r.name = none) → ∃ e, namesFile rs = .error e) ∧
    ((∀ r ∈ rs, r.name.isSome = true ∧ r.shortcuts.isSome = true) →
      ∃ out, namesFile rs = .ok out) ∧
    (∀ (st : AggState) (nm : Option String) (sc : Option (List String)),
      processRecord st ⟨nm, sc, none⟩ = processRecord st ⟨nm, sc, some ""⟩) := by
  refine ⟨?_, ?_, ?_⟩
  · rintro ⟨r, hr, hname⟩
    cases haggr : aggregate rs with
    | error e => exact ⟨e, by simp [namesFile, haggr]⟩
    | ok st =>
      have haggr' : aggLoop ⟨[], [], []⟩ rs = .ok st := haggr
      have := (aggLoop_ok_wf rs _ st haggr' r hr).1
      rw [hname] at this
      simp at this
  · intro h
    obtain ⟨st, hst⟩ := aggLoop_wf_ok rs ⟨[], [], []⟩ h
    have hst' : aggregate rs = .ok st := hst
    exact ⟨_, by unfold namesFile; rw [hst']⟩
  · intro st nm sc
    cases nm <;> cases sc <;> rfl

theorem c4_witness :
    (∃ e, namesFile [InputRecord.mk none (some []) none] = .error e) ∧
    (∃ out, namesFile [InputRecord.mk (some "A") (some ["X"]) none] = .ok out) ∧
    processRecord ⟨[], [], []⟩ ⟨some "A", some [], none⟩ =
      processRecord ⟨[], [], []⟩ ⟨some "A", some [], some ""⟩ :=
  ⟨(c4_missing_name_fatal _).1 ⟨_, List.mem_cons_self _ _, rfl⟩,
   (c4_missing_name_fatal _).2.1 (by decide),
   (c4_missing_name_fatal []).2.2 ⟨[], [], []⟩ (some "A") (some [])⟩

/-! ## Claim C10 -/

/-- C10: a record lacking the `shortcuts` key makes processing fail (the
direct `record['shortcuts']` lookup raises) during aggregation, before the
output file is written, so the `shortcuts` field is effectively required
even though the spec names only `name` as required. -/
theorem c10_missing_shortcuts_fatal (rs : List InputRecord)
    (h : ∃ r ∈ rs, r.shortcuts = none) : ∃ e, namesFile rs = .error e := by
  cases haggr : aggregate rs with
  | error e => exact ⟨e, by simp [namesFile, haggr]⟩
  | ok st =>
    obtain ⟨r, hr, hsc⟩ := h
    have haggr' : aggLoop ⟨[], [], []⟩ rs = .ok st := haggr
    have := (aggLoop_ok_wf rs _ st haggr' r hr).2
    rw [hsc] at this
    simp at this

theorem c10_witness :
    ∃ e, namesFile [InputRecord.mk (some "A") none none] = .error e :=
  c10_missing_shortcuts_fatal [InputRecord.mk (some "A") none none]
    ⟨_, List.mem_cons_self _ _, rfl⟩

/-! ## Lemmas: the embedded string comparison agrees with `· ≤ ·` -/

theorem strLeB_iff_not_lex :
    ∀ x y : List Char, strLeB x y = true ↔ ¬ List.Lex (· < ·) y x := by
  intro x
  induction x with
  | nil =>
    intro y
    simp only [strLeB]
    constructor
    · intro _ h
      exact List.Lex.not_nil_right _ _ h
    · intro _
      trivial
  | cons a as ih =>
    intro y
    cases y with
    | nil =>
      simp only [strLeB]
      constructor
      · intro h
        cases h
      · intro h
        exact absurd List.Lex.nil h
    | cons b bs =>
      rcases lt_trichotomy a b with hab | hab | hab
      · simp only [strLeB, if_pos hab]
        constructor
        · intro _ hlex
          cases hlex with
          | cons h => exact lt_irrefl a hab
          | rel h => exact lt_asymm hab h
        · intro _
          trivial
      · subst hab
        simp only [strLeB, if_neg (lt_irrefl a)]
        rw [ih bs]
        constructor
        · intro h hlex
          cases hlex with
          | cons h2 => exact h h2
          | rel h2 => exact lt_irrefl a h2
        · intro h h2
          exact h (List.Lex.cons h2)
      · have h1 : ¬ a < b := lt_asymm hab
        simp only [strLeB, if_neg h1, if_pos hab]
        constructor
        · intro h
          cases h
        · intro h
          exact absurd (List.Lex.rel hab) h

/-- The embedded comparison is exactly the codepoint-lexicographic string
order. -/
theorem pyLe_iff_le (s t : String) : pyLe s t ↔ s ≤ t := by
  rw [pyLe, strLeB_iff_not_lex, String.le_iff_toList_le, ← not_lt]
  exact Iff.rfl

theorem orderedInsert_rel_congr {α : Type} (r₁ r₂ : α → α → Prop)
    [DecidableRel r₁] [DecidableRel r₂] (h : ∀ a b, r₁ a b ↔ r₂ a b) (a : α)
    (l : List α) : List.orderedInsert r₁ a l = List.orderedInsert r₂ a l := by
  induction l with
  | nil => rfl
  | cons b l ih =>
    simp only [List.orderedInsert]
    rw [ih, if_congr (h a b) rfl rfl]

theorem insertionSort_rel_congr {α : Type} (r₁ r₂ : α → α → Prop)
    [DecidableRel r₁] [DecidableRel r₂] (h : ∀ a b, r₁ a b ↔ r₂ a b)
    (l : List α) : List.insertionSort r₁ l = List.insertionSort r₂ l := by
  induction l with
  | nil => rfl
  | cons a l ih =>
    simp only [List.insertionSort]
    rw [ih, orderedInsert_rel_congr r₁ r₂ h]

theorem pySortStrings_eq (l : List String) :
    pySortStrings l = List.insertionSort (· ≤ ·) l :=
  insertionSort_rel_congr _ _ (fun a b => pyLe_iff_le a b) l

theorem organizedItemsSorted_eq (st : AggState) :
    organizedItemsSorted st =
      List.insertionSort (fun a b : String × NameGroup => a.1 ≤ b.1) st.organized := by
  rw [organizedItemsSorted]
  exact insertionSort_rel_congr (fun a b : String × NameGroup => pyLe a.1 b.1)
    (fun a b : String × NameGroup => a.1 ≤ b.1) (fun a b => pyLe_iff_le a.1 b.1)
    st.organized

/-! ## Lemmas: sorting -/

/-- A weakly sorted list of strings without duplicates is strictly
sorted. -/
theorem sorted_lt_of_sorted_le_nodup {l : List String}
    (hs : l.Sorted (· ≤ ·)) (hn : l.Nodup) : l.Sorted (· < ·) :=
  (List.Pairwise.and hs hn).imp fun h => lt_of_le_of_ne h.1 h.2

theorem renderedShortcuts_sorted (sc : List String) :
    (renderedShortcuts sc).Sorted (· ≤ ·) := by
  rw [renderedShortcuts, pySortStrings_eq]
  exact List.sorted_insertionSort (· ≤ ·) sc.dedup

theorem renderedShortcuts_nodup (sc : List String) :
    (renderedShortcuts sc).Nodup := by
  rw [renderedShortcuts, pySortStrings_eq]
  exact (List.Perm.nodup_iff (List.perm_insertionSort (· ≤ ·) sc.dedup)).mpr
    (List.nodup_dedup sc)

theorem renderedShortcuts_mem (sc : List String) (s : String) :
    s ∈ renderedShortcuts sc ↔ s ∈ sc := by
  rw [renderedShortcuts, pySortStrings_eq, List.mem_insertionSort, List.mem_dedup]

/-- The key sequence of `sorted(data_organized.items())` after a successful
aggregation is strictly ascending. -/
theorem aggregate_sorted_keys_strict (rs : List InputRecord) (st : AggState)
    (h : aggregate rs = .ok st) :
    ((organizedItemsSorted st).map Prod.fst).Sorted (· < ·) := by
  rw [organizedItemsSorted_eq]
  have hnd : (st.organized.map Prod.fst).Nodup :=
    aggLoop_nodup_keys rs ⟨[], [], []⟩ st (by simp) h
  have hperm : List.Perm
      ((List.insertionSort (fun a b : String × NameGroup => a.1 ≤ b.1)
        st.organized).map Prod.fst)
      (st.organized.map Prod.fst) :=
    (List.perm_insertionSort _ st.organized).map Prod.fst
  have hnd' := (List.Perm.nodup_iff hperm).mpr hnd
  have hs : (List.insertionSort (fun a b : String × NameGroup => a.1 ≤ b.1)
      st.organized).Sorted (fun a b => a.1 ≤ b.1) :=
    List.sorted_insertionSort _ st.organized
  have hs' : ((List.insertionSort (fun a b : String × NameGroup => a.1 ≤ b.1)
      st.organized).map Prod.fst).Sorted (· ≤ ·) := by
    rw [List.Sorted, List.pairwise_map]
    exact hs
  exact sorted_lt_of_sorted_le_nodup hs' hnd'

/-- With duplicate-free keys, `lookupOrg` is invariant under permutation
of the association list. -/
theorem lookupOrg_perm (l₁ l₂ : List (String × NameGroup)) (hperm : List.Perm l₁ l₂)
    (hnd : (l₁.map Prod.fst).Nodup) (n : String) :
    lookupOrg l₁ n = lookupOrg l₂ n := by
  have hnd₂ : (l₂.map Prod.fst).Nodup :=
    (List.Perm.nodup_iff (hperm.map Prod.fst)).mp hnd
  cases h : lookupOrg l₁ n with
  | none =>
    have hmem : n ∉ l₁.map Prod.fst := (lookupOrg_eq_none_iff l₁ n).mp h
    have hmem₂ : n ∉ l₂.map Prod.fst := fun hc => hmem ((hperm.map Prod.fst).mem_iff.mpr hc)
    exact ((lookupOrg_eq_none_iff l₂ n).mpr hmem₂).symm
  | some g =>
    have hmem : (n, g) ∈ l₂ := hperm.mem_iff.mp (lookupOrg_mem l₁ n g h)
    exact (mem_lookupOrg l₂ n g hnd₂ hmem).symm

/-- Two association lists with strictly sorted keys and the same lookup
function are equal. -/
theorem sorted_assoc_ext :
    ∀ (l₁ l₂ : List (String × NameGroup)),
      (l₁.map Prod.fst).Sorted (· < ·) → (l₂.map Prod.fst).Sorted (· < ·) →
      (∀ n, lookupOrg l₁ n = lookupOrg l₂ n) → l₁ = l₂ := by
  intro l₁
  induction l₁ with
  | nil =>
    intro l₂ _ _ hlook
    cases l₂ with
    | nil => rfl
    | cons p t =>
      obtain ⟨k, v⟩ := p
      have := hlook k
      simp [lookupOrg] at this
  | cons p t₁ ih =>
    obtain ⟨k, v⟩ := p
    intro l₂ hs₁ hs₂ hlook
    cases l₂ with
    | nil =>
      have := hlook k
      simp [lookupOrg] at this
    | cons q t₂ =>
      obtain ⟨k₂, v₂⟩ := q
      have hhead₁ : ∀ x ∈ (t₁.map Prod.fst), k < x := by
        rw [List.map_cons, List.sorted_cons] at hs₁
        exact hs₁.1
      have hhead₂ : ∀ x ∈ (t₂.map Prod.fst), k₂ < x := by
        rw [List.map_cons, List.sorted_cons] at hs₂
        exact hs₂.1
      have hk12 : k₂ ≤ k := by
        have hv : lookupOrg ((k, v) :: t₁) k = some v := by simp [lookupOrg]
        have hv₂ : lookupOrg ((k₂, v₂) :: t₂) k = some v := (hlook k) ▸ hv
        have hmem : (k, v) ∈ (k₂, v₂) :: t₂ := lookupOrg_mem _ _ _ hv₂
        rcases List.mem_cons.mp hmem with hm | hm
        · injection hm with h1 _
          exact le_of_eq h1.symm
        · exact le_of_lt (hhead₂ k (List.mem_map_of_mem Prod.fst hm))
      have hk21 : k ≤ k₂ := by
        have hv : lookupOrg ((k₂, v₂) :: t₂) k₂ = some v₂ := by simp [lookupOrg]
        have hv₂ : lookupOrg ((k, v) :: t₁) k₂ = some v₂ := (hlook k₂).symm ▸ hv
        have hmem : (k₂, v₂) ∈ (k, v) :: t₁ := lookupOrg_mem _ _ _ hv₂
        rcases List.mem_cons.mp hmem with hm | hm
        · injection hm with h1 _
          exact le_of_eq h1.symm
        · exact le_of_lt (hhead₁ k₂ (List.mem_map_of_mem Prod.fst hm))
      have hkk : k = k₂ := le_antisymm hk21 hk12
      subst hkk
      have hvv : v = v₂ := by
        have hv : lookupOrg ((k, v) :: t₁) k = some v := by simp [lookupOrg]
        have hv₂ : lookupOrg ((k, v₂) :: t₂) k = some v₂ := by simp [lookupOrg]
        have := (hlook k) ▸ hv
        rw [hv₂] at this
        exact Option.some.inj this.symm
      subst hvv
      have htails : ∀ n, lookupOrg t₁ n = lookupOrg t₂ n := by
        intro n
        by_cases hn : k = n
        · subst hn
          have h₁ : lookupOrg t₁ k = none := (lookupOrg_eq_none_iff t₁ k).mpr
            (fun hc => lt_irrefl k (hhead₁ k hc))
          have h₂ : lookupOrg t₂ k = none := (lookupOrg_eq_none_iff t₂ k).mpr
            (fun hc => lt_irrefl k (hhead₂ k hc))
          rw [h₁, h₂]
        · have h₁ : lookupOrg ((k, v) :: t₁) n = lookupOrg t₁ n := by
            simp [lookupOrg, hn]
          have h₂ : lookupOrg ((k, v) :: t₂) n = lookupOrg t₂ n := by
            simp [lookupOrg, hn]
          rw [← h₁, ← h₂]
          exact hlook n
      have ht : t₁ = t₂ := by
        refine ih t₂ ?_ ?_ htails
        · rw [List.map_cons, List.sorted_cons] at hs₁
          exact hs₁.2
        · rw [List.map_cons, List.sorted_cons] at hs₂
          exact hs₂.2
      rw [ht]

/-! ## Claim C7 -/

/-- C7: the assignment line first deduplicates the group's shortcut list,
sorts it ascending lexicographically (strictly, since deduplicated), emits
each shortcut followed by `" = "` in that order, and ends with the name
wrapped in single quotes; an empty shortcut list renders as the quoted name
with an empty prefix. -/
theorem c7_assignment_line (sc : List String) (n : String) :
    assignLine sc n =
      String.join ((renderedShortcuts sc).map fun s => s ++ " = ") ++
        squote ++ n ++ squote ∧
    (renderedShortcuts sc).Sorted (· < ·) ∧
    (renderedShortcuts sc).Nodup ∧
    (∀ s, s ∈ renderedShortcuts sc ↔ s ∈ sc) ∧
    (sc = [] → assignLine sc n = squote ++ n ++ squote) := by
  refine ⟨rfl,
    sorted_lt_of_sorted_le_nodup (renderedShortcuts_sorted sc) (renderedShortcuts_nodup sc),
    renderedShortcuts_nodup sc, renderedShortcuts_mem sc, ?_⟩
  intro h
  subst h
  rfl

theorem c7_witness :
    assignLine [] "N" = squote ++ "N" ++ squote ∧
    "A" ∈ renderedShortcuts ["B", "A", "B"] :=
  ⟨(c7_assignment_line [] "N").2.2.2.2 rfl,
   ((c7_assignment_line ["B", "A", "B"] "N").2.2.2.1 "A").mpr (by decide)⟩

/-! ## Claim C6 -/

/-- C6: the rendered output emits the name groups in strictly ascending
lexicographic (codepoint) order of their names: the key sequence of
`sorted(data_organized.items())`, which `namesFile` renders in order, is
strictly `<`-sorted. -/
theorem c6_groups_strictly_sorted (rs : List InputRecord) (st : AggState)
    (h : aggregate rs = .ok st) :
    ((organizedItemsSorted st).map Prod.fst).Sorted (· < ·) :=
  aggregate_sorted_keys_strict rs st h

theorem c6_witness :
    ((organizedItemsSorted
        (AggState.mk [("A", NameGroup.mk ["X", "Z"] ["d"]), ("B", NameGroup.mk ["Y"] [])]
          ["A", "B", "A"] ["X", "Y", "Z"])).map Prod.fst).Sorted (· < ·) :=
  c6_groups_strictly_sorted
    [InputRecord.mk (some "A") (some ["X"]) (some "d"),
     InputRecord.mk (some "B") (some ["Y"]) none,
     InputRecord.mk (some "A") (some ["Z"]) (some "")]
    (AggState.mk [("A", NameGroup.mk ["X", "Z"] ["d"]), ("B", NameGroup.mk ["Y"] [])]
      ["A", "B", "A"] ["X", "Y", "Z"])
    (by decide)

/-! ## Claim C5 -/

/-- C5 as stated is false: a shortcut string attached to two distinct
names is rendered once in each of the two assignment lines, hence twice in
the whole output.  With input records `(A, [X])` and `(B, [X])` the
shortcut `"X"` occupies two slots across the assignment lines, and the
rendered file contains both `X = 'A'` and `X = 'B'`. -/
theorem c5_counterexample :
    outputShortcutSlots
        [InputRecord.mk (some "A") (some ["X"]) none,
         InputRecord.mk (some "B") (some ["X"]) none] = .ok ["X", "X"] ∧
    ¬ (List.count "X" ["X", "X"] = 1) ∧
    namesFile
        [InputRecord.mk (some "A") (some ["X"]) none,
         InputRecord.mk (some "B") (some ["X"]) none] =
      .ok (headerLines ++
        [assignLine ["X"] "A", "", assignLine ["X"] "B", "", hashRow]) := by
  refine ⟨by decide, by decide, by decide⟩

/-- C5 amended: each name occurring in the input appears exactly once as a
group key of the rendered output, and within each name group's assignment
line each shortcut appears exactly once, the group's rendered shortcuts
being exactly the shortcuts contributed by the records with that name (so
a shortcut attached to k distinct names appears k times overall, once per
group, rather than exactly once in the whole output). -/
theorem c5_names_once_shortcuts_once_per_group (rs : List InputRecord) (st : AggState)
    (h : aggregate rs = .ok st) :
    (∀ n : String, ((organizedItemsSorted st).map Prod.fst).count n =
        if recordsFor rs n = [] then 0 else 1) ∧
    (∀ (n : String) (g : NameGroup), lookupOrg st.organized n = some g →
        ∀ s : String,
          ((renderedShortcuts g.shortcuts).count s = if s ∈ g.shortcuts then 1 else 0) ∧
          (s ∈ g.shortcuts ↔ s ∈ specShortcuts rs n)) := by
  have hnd : (st.organized.map Prod.fst).Nodup :=
    aggLoop_nodup_keys rs ⟨[], [], []⟩ st (by simp) h
  have hperm : List.Perm ((organizedItemsSorted st).map Prod.fst)
      (st.organized.map Prod.fst) :=
    (List.perm_insertionSort _ st.organized).map Prod.fst
  have hnd' : ((organizedItemsSorted st).map Prod.fst).Nodup :=
    (List.Perm.nodup_iff hperm).mpr hnd
  constructor
  · intro n
    have hmem : n ∈ (organizedItemsSorted st).map Prod.fst ↔ ¬ recordsFor rs n = [] := by
      rw [hperm.mem_iff]
      constructor
      · intro hm hrec
        have hnone : lookupOrg st.organized n = none := by
          rw [aggregate_lookup rs st h n, specGroupFor, if_pos hrec]
        exact ((lookupOrg_eq_none_iff _ n).mp hnone) hm
      · intro hrec
        by_contra hm
        have hnone : lookupOrg st.organized n = none :=
          (lookupOrg_eq_none_iff _ n).mpr hm
        rw [aggregate_lookup rs st h n, specGroupFor, if_neg hrec] at hnone
        simp at hnone
    by_cases hrec : recordsFor rs n = []
    · rw [if_pos hrec, List.count_eq_zero]
      intro hm
      exact (hmem.mp hm) hrec
    · rw [if_neg hrec]
      exact List.count_eq_one_of_mem hnd' (hmem.mpr hrec)
  · intro n g hg s
    constructor
    · by_cases hsmem : s ∈ g.shortcuts
      · rw [if_pos hsmem]
        exact List.count_eq_one_of_mem (renderedShortcuts_nodup _)
          ((renderedShortcuts_mem _ s).mpr hsmem)
      · rw [if_neg hsmem, List.count_eq_zero]
        intro hm
        exact hsmem ((renderedShortcuts_mem _ s).mp hm)
    · have hspec := aggregate_lookup rs st h n
      rw [hg, specGroupFor] at hspec
      by_cases hrec : recordsFor rs n = []
      · rw [if_pos hrec] at hspec
        simp at hspec
      · rw [if_neg hrec] at hspec
        have hgg : g = ⟨specShortcuts rs n, specDescriptions rs n⟩ :=
          Option.some.inj hspec
        rw [hgg]

/-! ## Claim C1 -/

/-- `specGroupFor` only depends on the per-name record subsequence. -/
theorem specGroupFor_congr (rs₁ rs₂ : List InputRecord) (n : String)
    (h : recordsFor rs₁ n = recordsFor rs₂ n) :
    specGroupFor rs₁ n = specGroupFor rs₂ n := by
  simp [specGroupFor, specShortcuts, specDescriptions, h]

/-- C1 as stated is false: the descriptions of records sharing a name are
numbered in input order, so swapping two same-name records with different
descriptions changes the rendered comment line (`(1) x (2) y` versus
`(1) y (2) x`) even though the input is merely permuted. -/
theorem c1_counterexample :
    List.Perm
        [InputRecord.mk (some "A") (some []) (some "x"),
         InputRecord.mk (some "A") (some []) (some "y")]
        [InputRecord.mk (some "A") (some []) (some "y"),
         InputRecord.mk (some "A") (some []) (some "x")] ∧
    namesFile
        [InputRecord.mk (some "A") (some []) (some "x"),
         InputRecord.mk (some "A") (some []) (some "y")] ≠
      namesFile
        [InputRecord.mk (some "A") (some []) (some "y"),
         InputRecord.mk (some "A") (some []) (some "x")] := by
  constructor
  · exact List.Perm.swap _ _ _
  · decide

/-- C1 amended: the rendered output is a pure function of the input (fully
deterministic, no hash/iteration-order dependence) and is invariant under
exactly those permutations of well-formed input records that preserve, for
every name, the relative order of the records carrying that name. -/
theorem c1_render_order_invariance (rs₁ rs₂ : List InputRecord)
    (h₁ : ∀ r ∈ rs₁, r.name.isSome = true ∧ r.shortcuts.isSome = true)
    (h₂ : ∀ r ∈ rs₂, r.name.isSome = true ∧ r.shortcuts.isSome = true)
    (hsame : ∀ n, recordsFor rs₁ n = recordsFor rs₂ n) :
    namesFile rs₁ = namesFile rs₂ := by
  obtain ⟨st₁, ha₁'⟩ := aggLoop_wf_ok rs₁ ⟨[], [], []⟩ h₁
  obtain ⟨st₂, ha₂'⟩ := aggLoop_wf_ok rs₂ ⟨[], [], []⟩ h₂
  have ha₁ : aggregate rs₁ = .ok st₁ := ha₁'
  have ha₂ : aggregate rs₂ = .ok st₂ := ha₂'
  have hnd₁ : (st₁.organized.map Prod.fst).Nodup :=
    aggLoop_nodup_keys rs₁ ⟨[], [], []⟩ st₁ (by simp) ha₁
  have hnd₂ : (st₂.organized.map Prod.fst).Nodup :=
    aggLoop_nodup_keys rs₂ ⟨[], [], []⟩ st₂ (by simp) ha₂
  have hlook : ∀ n, lookupOrg (organizedItemsSorted st₁) n =
      lookupOrg (organizedItemsSorted st₂) n := by
    intro n
    have hperm₁ : List.Perm (organizedItemsSorted st₁) st₁.organized :=
      List.perm_insertionSort _ st₁.organized
    have hperm₂ : List.Perm (organizedItemsSorted st₂) st₂.organized :=
      List.perm_insertionSort _ st₂.organized
    have hnd₁' : ((organizedItemsSorted st₁).map Prod.fst).Nodup :=
      (List.Perm.nodup_iff (hperm₁.map Prod.fst)).mpr hnd₁
    have hnd₂' : ((organizedItemsSorted st₂).map Prod.fst).Nodup :=
      (List.Perm.nodup_iff (hperm₂.map Prod.fst)).mpr hnd₂
    rw [lookupOrg_perm _ _ hperm₁ hnd₁' n, lookupOrg_perm _ _ hperm₂ hnd₂' n,
      aggregate_lookup rs₁ st₁ ha₁ n, aggregate_lookup rs₂ st₂ ha₂ n]
    exact specGroupFor_congr rs₁ rs₂ n (hsame n)
  have hitems : organizedItemsSorted st₁ = organizedItemsSorted st₂ :=
    sorted_assoc_ext _ _ (aggregate_sorted_keys_strict rs₁ st₁ ha₁)
      (aggregate_sorted_keys_strict rs₂ st₂ ha₂) hlook
  unfold namesFile
  rw [ha₁, ha₂]
  simp only [hitems]

theorem c1_witness :
    namesFile
        [InputRecord.mk (some "A") (some ["X"]) (some "da"),
         InputRecord.mk (some "B") (some ["Y"]) none] =
      namesFile
        [InputRecord.mk (some "B") (some ["Y"]) none,
         InputRecord.mk (some "A") (some ["X"]) (some "da")] := by
  refine c1_render_order_invariance _ _ (by decide) (by decide) ?_
  intro n
  by_cases hA : (some "A" : Option String) = some n <;>
    by_cases hB : (some "B" : Option String) = some n
  · exfalso
    have hab := hA.trans hB.symm
    simp at hab
  · simp [recordsFor, List.filter_cons, hA, hB]
  · simp [recordsFor, List.filter_cons, hA, hB]
  · simp [recordsFor, List.filter_cons, hA, hB]

/-! ## Lemmas: combining descriptions (claim C8) -/

theorem joinBySpace_cons_cons (s t : String) (rest : List String) :
    joinBySpace (s :: t :: rest) = s ++ " " ++ joinBySpace (t :: rest) := rfl

theorem joinBySpace_cons : ∀ (a : String) (as : List String),
    joinBySpace (a :: as) = a ++ joinSpaceTail as
  | a, [] => (String.append_empty a).symm
  | a, b :: bs => by
    rw [joinBySpace_cons_cons, joinBySpace_cons b bs, joinSpaceTail]
    simp [String.append_assoc]

theorem intercalateGo_spec : ∀ (as : List String) (acc : String),
    String.intercalate.go acc " " as = acc ++ joinSpaceTail as
  | [], acc => (String.append_empty acc).symm
  | a :: as, acc => by
    rw [String.intercalate.go, intercalateGo_spec as, joinSpaceTail]
    simp [String.append_assoc]

theorem joinBySpace_eq_intercalate : ∀ l : List String,
    joinBySpace l = String.intercalate " " l
  | [] => rfl
  | a :: as => by
    rw [joinBySpace_cons, String.intercalate, intercalateGo_spec]

theorem rstripL_append_space (m : List Char) (c : Char) (hc : isPySpace c = true) :
    rstripL (m ++ [c]) = rstripL m := by
  simp only [rstripL, List.reverse_append, List.reverse_cons, List.reverse_nil,
    List.nil_append, List.cons_append, List.dropWhile_cons_of_pos hc]

theorem pyStrip_append_space (s : String) : pyStrip (s ++ " ") = pyStrip s := by
  have hdata : (s ++ " ").data = s.data ++ [' '] := String.data_append s " "
  rw [pyStrip, pyStrip, hdata, stripL, stripL]
  rcases hdw : s.data.dropWhile isPySpace with _ | ⟨a, as⟩
  · have hall : ∀ x ∈ s.data, isPySpace x = true := by
      intro x hx
      by_contra hns
      have hne : s.data.dropWhile isPySpace ≠ [] := by
        intro hnil
        have := List.dropWhile_eq_nil_iff.mp hnil x hx
        exact hns this
      exact hne hdw
    have h1 : List.dropWhile isPySpace (s.data ++ [' ']) =
        List.dropWhile isPySpace [' '] := List.dropWhile_append_of_pos hall
    have h2 : List.dropWhile isPySpace [' '] = ([] : List Char) := by decide
    rw [h1, h2]
  · rw [List.dropWhile_append, hdw]
    simp only [List.isEmpty_cons, Bool.false_eq_true, if_false]
    rw [rstripL_append_space _ _ (by decide)]

/-- The numbered accumulation loop produces the space-separated numbered
pieces followed by one trailing space. -/
theorem numberedGo_eq : ∀ (ds : List String) (i : Nat) (d : String),
    numberedGo i (d :: ds) = joinBySpace (specNumberedGo i (d :: ds)) ++ " "
  | [], i, d => by
    rw [numberedGo, numberedGo, specNumberedGo, specNumberedGo, joinBySpace]
    rw [String.append_empty]
  | e :: es, i, d => by
    rw [numberedGo, numberedGo_eq es (i + 1) e]
    simp only [specNumberedGo]
    rw [joinBySpace_cons_cons]
    simp [String.append_assoc]

/-! ## Lemmas: text wrapping bounds (claim C9) -/

theorem chunksOf_length (k : Nat) :
    ∀ (n : Nat) (l : List Char), l.length ≤ n → ∀ c ∈ chunksOf k l, c.length ≤ k + 1 := by
  intro n
  induction n with
  | zero =>
    intro l hl c hc
    have hnil : l = [] := List.eq_nil_of_length_eq_zero (Nat.le_zero.mp hl)
    subst hnil
    simp [chunksOf] at hc
  | succ n ih =>
    intro l hl c hc
    cases l with
    | nil => simp [chunksOf] at hc
    | cons a as =>
      rw [chunksOf] at hc
      rcases List.mem_cons.mp hc with h | h
      · subst h
        simp only [List.length_cons, List.length_take]
        omega
      · refine ih (as.drop k) ?_ c h
        simp only [List.length_drop]
        simp only [List.length_cons] at hl
        omega

theorem breakLongWords_length (avail : Nat) (h : 1 ≤ avail) (ws : List (List Char)) :
    ∀ w ∈ breakLongWords avail ws, w.length ≤ avail := by
  intro w hw
  rw [breakLongWords] at hw
  obtain ⟨w0, _, hmem⟩ := List.mem_flatMap.mp hw
  by_cases hlen : w0.length ≤ avail
  · rw [if_pos hlen] at hmem
    simp only [List.mem_singleton] at hmem
    subst hmem
    exact hlen
  · rw [if_neg hlen] at hmem
    have := chunksOf_length (avail - 1) w0.length w0 le_rfl w hmem
    omega

theorem fillLoop_length (avail : Nat) :
    ∀ (ws : List (List Char)) (cur : List Char),
      (∀ w ∈ ws, w.length ≤ avail) → cur.length ≤ avail →
      ∀ l ∈ fillLoop avail ws cur, l.length ≤ avail := by
  intro ws
  induction ws with
  | nil =>
    intro cur _ hcur l hl
    simp only [fillLoop, List.mem_singleton] at hl
    subst hl
    exact hcur
  | cons w ws ih =>
    intro cur hws hcur l hl
    rw [fillLoop] at hl
    by_cases hfit : cur.length + 1 + w.length ≤ avail
    · rw [if_pos hfit] at hl
      refine ih (cur ++ ' ' :: w) (fun x hx => hws x (List.mem_cons_of_mem _ hx)) ?_ l hl
      simp only [List.length_append, List.length_cons]
      omega
    · rw [if_neg hfit] at hl
      rcases List.mem_cons.mp hl with h | h
      · subst h
        exact hcur
      · exact ih w (fun x hx => hws x (List.mem_cons_of_mem _ hx))
          (hws w (List.mem_cons_self _ _)) l h

theorem wrapLines_length (avail : Nat) (ws : List (List Char))
    (hws : ∀ w ∈ ws, w.length ≤ avail) :
    ∀ l ∈ wrapLines avail ws, l.length ≤ avail := by
  cases ws with
  | nil =>
    intro l hl
    simp [wrapLines] at hl
  | cons w ws =>
    intro l hl
    exact fillLoop_length avail ws w (fun x hx => hws x (List.mem_cons_of_mem _ hx))
      (hws w (List.mem_cons_self _ _)) l hl

/-- Every line produced by the embedded `TextWrapper` carries the `"# "`
indent and stays within the 80-character width. -/
theorem wrapText_lines (t : String) :
    ∀ l ∈ wrapText 80 "# " t, (∃ r, l = "# " ++ r) ∧ l.length ≤ 80 := by
  intro l hl
  rw [wrapText] at hl
  obtain ⟨c, hc, heq⟩ := List.mem_map.mp hl
  refine ⟨⟨String.mk c, heq.symm⟩, ?_⟩
  have havail : (80 : Nat) - ("# ").length = 78 := by decide
  rw [havail] at hc
  have hbound := wrapLines_length 78 _
    (breakLongWords_length 78 (by omega) (splitWords t.data)) c hc
  have hlc : (String.mk c).length = c.length := rfl
  have h2 : ("# ").length = 2 := by decide
  rw [← heq, String.length_append, hlc, h2]
  omega

/-! ## Claim C9 -/

/-- C9: for a group with at least one description the rendered description
lines are the 80-column word-wrap of the combined description string, each
emitted line starting with the comment marker `"# "` and at most 80
characters long; a group with zero descriptions emits no description
lines. -/
theorem c9_description_lines_bounded (ds : List String) :
    (ds = [] → descriptionLines ds = []) ∧
    (∀ line ∈ descriptionLines ds,
      (∃ r, line = "# " ++ r) ∧ line.length ≤ 80) := by
  constructor
  · rintro rfl
    rfl
  · intro line hline
    rw [descriptionLines] at hline
    by_cases hlen : ds.length > 0
    · rw [if_pos hlen] at hline
      exact wrapText_lines _ line hline
    · rw [if_neg hlen] at hline
      simp at hline

theorem c9_witness :
    descriptionLines ([] : List String) = [] ∧
    ((∃ r, "# hello" = "# " ++ r) ∧ ("# hello").length ≤ 80) :=
  ⟨(c9_description_lines_bounded []).1 rfl,
   (c9_description_lines_bounded ["hello"]).2 "# hello" (by decide)⟩

/-! ## Claim C8 -/

/-- C8: the string handed to the text wrapper is, for a group with exactly
one description, that description trimmed of leading and trailing
whitespace; for a group with two or more descriptions, the trimmed
descriptions each preceded by their 1-based parenthesized index `"(i) "`
and separated by single spaces (the outer trim only removes the loop's
trailing space, and edge whitespace never survives wrapping). -/
theorem c8_combined_description (ds : List String) :
    (∀ d, ds = [d] → wrapInput ds = pyStrip d) ∧
    (2 ≤ ds.length → wrapInput ds = pyStrip (specNumbered ds)) := by
  constructor
  · rintro d rfl
    rfl
  · intro hlen
    rcases ds with _ | ⟨d, ds'⟩
    · simp at hlen
    · have hne : ¬ (d :: ds').length = 1 := by
        simp only [List.length_cons] at hlen ⊢
        omega
      rw [wrapInput, combineDescriptions, if_neg hne, numberedGo_eq ds' 1 d,
        pyStrip_append_space, specNumbered, ← joinBySpace_eq_intercalate]

theorem c8_witness :
    wrapInput ["a"] = pyStrip "a" ∧
    wrapInput [" x ", "y"] = pyStrip (specNumbered [" x ", "y"]) ∧
    wrapInput [" x ", "y"] = "(1) x (2) y" :=
  ⟨(c8_combined_description ["a"]).1 "a" rfl,
   (c8_combined_description [" x ", "y"]).2 (by decide),
   by decide⟩

theorem c5_witness :
    ((organizedItemsSorted sampleState).map Prod.fst).count "A" = 1 ∧
    (renderedShortcuts (NameGroup.mk ["X", "Z"] ["d"]).shortcuts).count "X" = 1 := by
  constructor
  · have h1 := (c5_names_once_shortcuts_once_per_group sampleRecords sampleState
      (by decide)).1 "A"
    rw [if_neg (by decide)] at h1
    exact h1
  · have h2 := ((c5_names_once_shortcuts_once_per_group sampleRecords sampleState
      (by decide)).2 "A" (NameGroup.mk ["X", "Z"] ["d"]) (by decide) "X").1
    rw [if_pos (by decide)] at h2
    exact h2
